import Mathlib

/-!
Verification of the `people` reconciliation scripts (`scripts/akmerge.py`,
`scripts/retire.py`) against their natural-language specification.

The Python sources are shallowly embedded below: person/committee documents
become Lean structures, the deferred-operation queue becomes a `List Op`, the
file store becomes an association list keyed by paths, and any code path that
raises in Python (missing seat, non-string district, failed assert, missing
file) is modelled with `Option`.

The helper modules `merge.py` and `utils.py` (functions `compare_objects`,
`merge_people`, `role_is_active`) are not part of the sources; their
definitions are modelled from the spec and marked as such in doc comments.

The file is organized as definitions first, then theorems.
-/

namespace People

/-! ## Definitions: data model (`akmerge.py` / `retire.py`) -/

/-- A scalar Python value as it appears in a role's `district` field:
either a string or an integer.  (`akmerge.py` only ever treats it as one of
these; any other shape is out of scope of the claims.) -/
inductive SVal where
  | vs (s : String)
  | vi (n : Int)
  deriving DecidableEq, Repr

/-- A role entry of a person document (`data['roles'][i]` in the Python).
Only the keys the scripts read or write are modelled; `end_date = none`
models a missing `end_date` key. -/
structure Role where
  rtype : String
  district : SVal
  start_date : Option String := none
  end_date : Option String := none
  end_reason : Option String := none
  deriving DecidableEq, Repr

/-- A non-role document field: either a scalar value or a list of flat
sub-documents (contact-detail style entries, each an association list). -/
inductive FieldVal where
  | scalar (s : String)
  | flist (xs : List (List (String × String)))
  deriving DecidableEq, Repr

/-- A person document (`PersonFile.data` in `akmerge.py`).  `pid`/`pname`
are the `id`/`name` keys; `fields` holds the remaining document keys. -/
structure Person where
  pid : String
  pname : String
  roles : List Role
  death_date : Option String := none
  fields : List (String × FieldVal) := []
  deriving DecidableEq, Repr

/-- Python truthiness of an optional string (`if reason:`): `None` and the
empty string are falsy. -/
def pyTruthy : Option String → Bool
  | none => false
  | some s => !s.isEmpty

/-- Modelled from the spec: `role_is_active` lives in `utils.py`, which is
not under `src/`.  Per the data model and glossary ("a role entry lacking an
end date"), a role is active iff its `end_date` is missing (or empty, the
falsy string). -/
def roleIsActive (end_date : Option String) : Bool := !pyTruthy end_date

/-- Python `str.isdigit()` on the district string: nonempty and all digits. -/
def strIsDigits (s : String) : Bool := !s.isEmpty && s.toList.all Char.isDigit

/-- Decimal value of a digit string (`int(...)` on an all-digit string). -/
def digitsToNat (cs : List Char) : Nat :=
  cs.foldl (fun n c => n * 10 + (c.toNat - Char.toNat '0')) 0

/-- District normalization from `PersonFile.seat`:
`int(district) if district.isdigit() else district`. -/
def normDistrict (d : String) : SVal :=
  if strIsDigits d then SVal.vi (digitsToNat d.toList) else SVal.vs d

/-- A seat: `(role type, normalized district)`. -/
abbrev Seat := String × SVal

/-- The seat of one role entry, as computed inside `PersonMerger.update`:
`role['type'], int(district) if district.isdigit() else district`.
Fails (Python `AttributeError`) when the district value is not a string. -/
def roleSeat? (r : Role) : Option Seat :=
  match r.district with
  | SVal.vs d => some (r.rtype, normDistrict d)
  | SVal.vi _ => none

/-- The `PersonFile.seat` property: reads `data['roles'][-1]` (fails with
`IndexError` on an empty list) and normalizes its district (fails with
`AttributeError` when the district is not a string). -/
def seat? (p : Person) : Option Seat :=
  match p.roles.getLast? with
  | none => none
  | some r => roleSeat? r

/-! ## Definitions: `scripts/retire.py` -/

/-- A committee membership entry (`committee['memberships'][i]`);
`mid = none` models a missing `id` key. -/
structure Membership where
  mid : Option String := none
  end_date : Option String := none
  deriving DecidableEq, Repr

/-- A committee document. -/
structure Committee where
  memberships : List Membership
  deriving DecidableEq, Repr

/-- The role-ending loop of `retire_person`: walks the person's roles,
stamping `end_date` (and `end_reason` when the reason is truthy) on each
active role and counting how many were ended. -/
def retireRolesLoop (ed : String) (reason : Option String) : List Role → List Role × Nat
  | [] => ([], 0)
  | r :: rs =>
    let rest := retireRolesLoop ed reason rs
    if roleIsActive r.end_date then
      ({ r with end_date := some ed,
                end_reason := if pyTruthy reason then reason else r.end_reason } :: rest.1,
       rest.2 + 1)
    else (r :: rest.1, rest.2)

/-- The function `retire_person(person, end_date, reason, death)`: end-dates every active
role, stamps `death_date` when `death` is set, and returns the updated person
together with the number of roles ended. -/
def retire_person (person : Person) (ed : String) (reason : Option String) (death : Bool) :
    Person × Nat :=
  let rs := retireRolesLoop ed reason person.roles
  ({ person with roles := rs.1,
                 death_date := if death then some ed else person.death_date },
   rs.2)

/-- The membership-ending loop of `retire_from_committee`. -/
def retireMembershipsLoop (pid : String) (ed : String) : List Membership → List Membership × Nat
  | [] => ([], 0)
  | m :: ms =>
    let rest := retireMembershipsLoop pid ed ms
    if m.mid == some pid && roleIsActive m.end_date then
      ({ m with end_date := some ed } :: rest.1, rest.2 + 1)
    else (m :: rest.1, rest.2)

/-- The function `retire_from_committee(committee, person_id, end_date)`: end-dates every
active membership whose `id` matches and counts them. -/
def retire_from_committee (c : Committee) (pid : String) (ed : String) : Committee × Nat :=
  let ms := retireMembershipsLoop pid ed c.memberships
  ({ memberships := ms.1 }, ms.2)

/-- The committee loop of `retire`: applies `retire_from_committee` to every
committee document in the store, accumulating updated documents and the
total membership count. -/
def retireCommitteesLoop (pid : String) (ed : String) : List Committee → List Committee × Nat
  | [] => ([], 0)
  | c :: cs =>
    let here := retire_from_committee c pid ed
    let rest := retireCommitteesLoop pid ed cs
    (here.1 :: rest.1, here.2 + rest.2)

/-- The document-level core of `retire(end_date, filename, reason, death)`:
forces the reason to `"Deceased"` on death, retires the person, retires
matching memberships in every committee, and returns the updated documents
with the total affected-role count (person roles + committee memberships).
File I/O (load/dump/move) is modelled separately in the store layer. -/
def retireDocs (ed : String) (person : Person) (committees : List Committee)
    (reason0 : Option String) (death : Bool) : Person × List Committee × Nat :=
  let reason := if death then some "Deceased" else reason0
  let pr := retire_person person ed reason death
  let cr := retireCommitteesLoop person.pid ed committees
  (pr.1, cr.1, pr.2 + cr.2)

/-- The effective reason used by `retire`: forced to the death marker when
`death` is set. -/
def effectiveReason (reason0 : Option String) (death : Bool) : Option String :=
  if death then some "Deceased" else reason0

/-- How one role is transformed by `retire_person`. -/
def retiredRole (ed : String) (reason : Option String) (r : Role) : Role :=
  if roleIsActive r.end_date then
    { r with end_date := some ed,
             end_reason := if pyTruthy reason then reason else r.end_reason }
  else r

/-- How one membership is transformed by `retire_from_committee`. -/
def retiredMembership (pid : String) (ed : String) (m : Membership) : Membership :=
  if m.mid == some pid && roleIsActive m.end_date then { m with end_date := some ed } else m

/-! ## Definitions: the document store

The scripts address records by file path.  A path is modelled as a partition
(`data/people/`, `data/retired/`, `incoming/people/`) plus a base name, and
the store is a path-keyed association list (the order of bindings carries no
meaning; saving replaces the binding).  `move_file`'s
`filename.replace('/people/', '/retired/')` rewrites a directory segment and
keeps the final path segment (the base name) intact, so it is modelled as a
change of partition. -/

/-- The three storage partitions of the data layout. -/
inductive Partition where
  | activeP
  | retiredP
  | incomingP
  deriving DecidableEq, Repr

/-- A record's logical path: partition plus base file name. -/
structure Path where
  part : Partition
  base : String
  deriving DecidableEq, Repr

/-- A loaded `PersonFile`: its path and parsed document. -/
structure PFile where
  path : Path
  data : Person
  deriving DecidableEq, Repr

/-- The person files currently on disk. -/
abbrev FStore := List (Path × Person)

/-- Reading the file at a path (`open`/`load_yaml`); `none` models a missing
file (Python `FileNotFoundError`). -/
def lookupFile : FStore → Path → Option Person
  | [], _ => none
  | e :: fs, p => if e.1 = p then some e.2 else lookupFile fs p

/-- Remove the binding for a path (helper for overwriting and moving). -/
def dropPath : FStore → Path → FStore
  | [], _ => []
  | e :: fs, p => if e.1 = p then dropPath fs p else e :: dropPath fs p

/-- Saving via `dump_obj(..., filename=...)`: overwrite the file at a path, creating it
when absent (replace the binding for that path). -/
def saveFile (files : FStore) (p : Path) (d : Person) : FStore :=
  dropPath files p ++ [(p, d)]

/-- Relocation via `move_file(filename)` and `os.renames`: relocate the record at `src` to the
retired partition, keeping its base name.  Fails when the source file is
missing. -/
def moveFile (files : FStore) (src : Path) : Option FStore :=
  match lookupFile files src with
  | none => none
  | some d => some (dropPath files src ++ [(⟨Partition.retiredP, src.base⟩, d)])

/-- The store as the reconcilers see it: person files plus the committee
documents reached by `retire`'s `../organizations/*.yml` glob. -/
structure StoreSt where
  files : FStore
  committees : List Committee
  deriving DecidableEq, Repr

/-- The full `retire(end_date, filename, reason, death)` run against the
store: load the person from its file, end-date roles, save back, update every
committee document, then move the file to the retired partition.  Returns the
new store and the reported affected-role count.  A zero count only changes
the message printed; it is not an error. -/
def retireExec (ed : String) (st : StoreSt) (src : Path) (reason : Option String)
    (death : Bool) : Option (StoreSt × Nat) := do
  let person ← lookupFile st.files src
  let res := retireDocs ed person st.committees reason death
  let files1 := saveFile st.files src res.1
  let files2 ← moveFile files1 src
  some (⟨files2, res.2.1⟩, res.2.2)

/-! ## Definitions: diff and merge engine (modelled from the spec)

`PersonFile.differences` calls `compare_objects(self.data, other.data,
ignore_keys={"id"})` and `PersonFile.merge` calls `merge_people(...,
keep_on_conflict='new', keep_both_ids=False)`; both live in `merge.py`,
which is not under `src/`.  They are modelled from the spec (sections 4.1
to 4.3): the update decision uses the differences filtered to those where
the second (incoming) document supplies genuinely new information, and the
merge keeps the existing id, lets the incoming value win on conflict, and
merges contact-like lists keyed by their `note` field. -/

/-- A difference between two documents: a scalar item difference carrying
both values (absence is a valid value), or a list-shaped difference. -/
inductive Diff where
  | item (key : String) (va vb : Option String)
  | dlist (key : String)
  deriving DecidableEq, Repr

/-- Modelled from the spec: a scalar difference counts only when the values
differ and the second (incoming) value is non-empty. -/
def scalarDiffM (k : String) (va vb : Option String) : List Diff :=
  if ¬ va = vb ∧ pyTruthy vb then [Diff.item k va vb] else []

/-- Modelled from the spec: a list difference counts only when the second
list contributes the discrepancy (has an element the first lacks);
comparison is insensitive to list order. -/
def listDiffM (k : String) (xs ys : List (List (String × String))) : List Diff :=
  if ∃ y ∈ ys, ¬ y ∈ xs then [Diff.dlist k] else []

/-- Same filter for the role list. -/
def rolesDiffM (k : String) (xs ys : List Role) : List Diff :=
  if ∃ y ∈ ys, ¬ y ∈ xs then [Diff.dlist k] else []

/-- Key lookup in a generic field association list. -/
def lookupF (fs : List (String × FieldVal)) (k : String) : Option FieldVal :=
  (fs.find? (fun kv => kv.1 = k)).map (·.2)

/-- Modelled from the spec: the new-side-only difference contributed at one
key by the two documents' field values.  A key entirely absent from the
incoming document never contributes. -/
def fieldDiff (k : String) (a b : Option FieldVal) : List Diff :=
  match a, b with
  | _, none => []
  | some (FieldVal.scalar x), some (FieldVal.scalar y) => scalarDiffM k (some x) (some y)
  | none, some (FieldVal.scalar y) => scalarDiffM k none (some y)
  | some (FieldVal.flist xs), some (FieldVal.flist ys) => listDiffM k xs ys
  | none, some (FieldVal.flist ys) => listDiffM k [] ys
  | some (FieldVal.scalar _), some (FieldVal.flist ys) => listDiffM k [] ys
  | some (FieldVal.flist _), some (FieldVal.scalar y) => scalarDiffM k none (some y)

/-- Differences over the generic fields of both documents (keys of the
first, then keys only the second has). -/
def fieldsDiff (fa fb : List (String × FieldVal)) : List Diff :=
  ((fa.map (·.1)) ++ (fb.map (·.1)).filter (fun k => (lookupF fa k).isNone)).flatMap
    (fun k => fieldDiff k (lookupF fa k) (lookupF fb k))

/-- Modelled from the spec: `compare_objects(a.data, b.data,
ignore_keys={"id"})` as used by `PersonFile.differences` — the differences
between the two documents (name, roles, death date, and the generic fields)
filtered to those where the second document supplies new information; the
`id` key is ignored. -/
def compare_objects (a b : Person) : List Diff :=
  scalarDiffM "name" (some a.pname) (some b.pname) ++
  rolesDiffM "roles" a.roles b.roles ++
  scalarDiffM "death_date" a.death_date b.death_date ++
  fieldsDiff a.fields b.fields

/-- Key lookup in a flat sub-document. -/
def lookupKV (kvs : List (String × String)) (k : String) : Option String :=
  (kvs.find? (fun kv => kv.1 = k)).map (·.2)

/-- Modelled from the spec: overlay (shallow-merge) the incoming entry's
fields onto the existing-keyed entry. -/
def overlay (base inc : List (String × String)) : List (String × String) :=
  base.map (fun kv =>
    match lookupKV inc kv.1 with
    | some v => (kv.1, v)
    | none => kv)
  ++ inc.filter (fun kv => (lookupKV base kv.1).isNone)

/-- Modelled from the spec: merge contact-like lists keyed by each entry's
`note` field — existing notes absent from the incoming list are preserved,
notes present in it are updated/extended. -/
def mergeContactList (old new : List (List (String × String))) :
    List (List (String × String)) :=
  old.map (fun oe =>
    match new.find? (fun ne => lookupKV ne "note" = lookupKV oe "note") with
    | some ne => overlay oe ne
    | none => oe)
  ++ new.filter (fun ne => old.all (fun oe => ¬ lookupKV oe "note" = lookupKV ne "note"))

/-- Modelled from the spec: merge of the generic fields — incoming wins on
conflict, fields only the existing document has are preserved, contact-like
lists get the note-keyed merge. -/
def mergeFields (old new : List (String × FieldVal)) : List (String × FieldVal) :=
  old.map (fun kv =>
    match lookupF new kv.1 with
    | none => kv
    | some nv =>
      (kv.1,
        match kv.2, nv with
        | FieldVal.flist xs, FieldVal.flist ys => FieldVal.flist (mergeContactList xs ys)
        | _, _ => nv))
  ++ new.filter (fun kv => (lookupF old kv.1).isNone)

/-- Modelled from the spec: `merge_people(old, new, keep_on_conflict='new',
keep_both_ids=False)` — the merged document keeps the existing `id`
regardless of the conflict rule; on any other field present in both, the
incoming value wins (in particular the role list is taken from the incoming
document); fields only the existing document has are preserved. -/
def merge_people (old new : Person) : Person :=
  { pid := old.pid
  , pname := new.pname
  , roles := new.roles
  , death_date :=
      match new.death_date with
      | some d => some d
      | none => old.death_date
  , fields := mergeFields old.fields new.fields }

/-! ## Definitions: `PersonMerger` operations (`akmerge.py`) -/

/-- A deferred operation of `PersonMerger`, with its positional arguments:
`create(new)`, `retire(existing)`, `update(existing, new)`. -/
inductive Op where
  | create (n : PFile)
  | retire (e : PFile)
  | update (e : PFile) (n : PFile)
  deriving DecidableEq, Repr

/-- The role-ending loop at the top of `PersonMerger.update`: for each of
the existing record's roles, compute its seat (fails on a non-string
district), and if the role is active and its seat differs from the incoming
record's current seat (whose evaluation fails when undefined), stamp
`end_date`. -/
def endRolesLoop (ed : String) (ns? : Option Seat) : List Role → Option (List Role)
  | [] => some []
  | r :: rs => do
    let s ← roleSeat? r
    let r' ←
      if roleIsActive r.end_date then
        match ns? with
        | none => none
        | some ns => some (if ¬ s = ns then { r with end_date := some ed } else r)
      else some r
    let rest ← endRolesLoop ed ns? rs
    some (r' :: rest)

/-- The operation `PersonMerger.update(existing, new)` with saving enabled: end-date the
existing record's active roles that moved seat, read `existing.seat` for the
log line (fails when undefined), then merge the incoming document into the
existing one and save at the existing record's path. -/
def runUpdate (ed : String) (e n : PFile) : Option PFile := do
  let roles' ← endRolesLoop ed (seat? n.data) e.data.roles
  let e1 : Person := { e.data with roles := roles' }
  let _ ← seat? e1
  some { e with data := merge_people e1 n.data }

/-! ## Definitions: the matching passes of `merge` (`akmerge.py`) -/

/-- The inner loop of the matching pass: the first incoming record whose id
is not yet handled and whose name equals the existing record's name. -/
def findMatch (h : List String) (nws : List PFile) (e : PFile) : Option PFile :=
  nws.find? (fun n => ¬ n.data.pid ∈ h ∧ e.data.pname = n.data.pname)

/-- The matching pass of `merge`: walk the existing records, skipping
handled ids; on a name match, schedule an update when the filtered
differences are non-empty, mark both ids handled, and account for the seat
(evaluating `new.seat`, which fails when undefined).  Also returns the list
of matched pairs (implicit in the Python through the handled set). -/
def matchPass (nws : List PFile) :
    List PFile → List String → Option (List String × List (PFile × PFile) × List Op)
  | [], h => some (h, [], [])
  | e :: rest, h =>
    if e.data.pid ∈ h then matchPass nws rest h
    else
      match findMatch h nws e with
      | none => matchPass nws rest h
      | some n => do
        let _ ← seat? n.data
        let ops0 := if compare_objects e.data n.data = [] then [] else [Op.update e n]
        let res ← matchPass nws rest (e.data.pid :: n.data.pid :: h)
        some (res.1, (e, n) :: res.2.1, ops0 ++ res.2.2)

/-- The retire pass of `merge`: every existing record whose id is still
unhandled becomes a retire operation. -/
def retirePass (ex : List PFile) (h : List String) : List Op :=
  (ex.filter (fun f => ¬ f.data.pid ∈ h)).map Op.retire

/-- The create pass of `merge`: every incoming record whose id is still
unhandled becomes a create operation. -/
def createPass (nws : List PFile) (h : List String) : List Op :=
  (nws.filter (fun f => ¬ f.data.pid ∈ h)).map Op.create

/-- The whole scheduling part of `merge(state, merger)`: the matching pass
from an empty handled set, then the retire and create passes.  Returns the
final handled set, the matched pairs and the deferred operation list. -/
def mergeRun (ex nws : List PFile) :
    Option (List String × List (PFile × PFile) × List Op) := do
  let res ← matchPass nws ex []
  some (res.1, res.2.1, res.2.2 ++ retirePass ex res.1 ++ createPass nws res.1)

/-! ## Definitions: the operation scheduler (`akmerge.py`) -/

/-- The document whose `seat` keys an operation in `sort_operations`:
`op[1][0]`, i.e. the first positional argument of the deferred call — the
incoming record for `create`, the existing record for `retire` and
`update`. -/
def opKeyDoc : Op → PFile
  | Op.create n => n
  | Op.retire e => e
  | Op.update e _ => e

/-- The key document as the spec describes it: "creates and updates key off
the incoming document's seat, retires off the existing document's seat".
Kept separate from `opKeyDoc` for comparison. -/
def specKeyDoc : Op → PFile
  | Op.create n => n
  | Op.retire e => e
  | Op.update _ n => n

/-- The seat used for sorting; `sort_operations` evaluates the `seat`
property of the key document, which raises when the seat is undefined —
theorems assume definedness, and the default value never surfaces under
that assumption. -/
def seatD (f : PFile) : Seat := (seat? f.data).getD ("", SVal.vi 0)

/-- Lexicographic comparison of character lists (Python's string `<`,
comparing code points). -/
def charListLt : List Char → List Char → Bool
  | [], [] => false
  | [], _ :: _ => true
  | _ :: _, [] => false
  | a :: as, b :: bs => if a = b then charListLt as bs else decide (a < b)

/-- Python string `<`. -/
def strLtB (a b : String) : Bool := charListLt a.toList b.toList

/-- Python string `<=`. -/
def strLeB (a b : String) : Bool := a == b || strLtB a b

/-- Python comparison of two normalized districts: ints by value, strings
lexicographically; a mixed int/string comparison raises `TypeError` and is
out of scope of the theorems (they assume homogeneous districts). -/
def svalLeB : SVal → SVal → Bool
  | SVal.vi m, SVal.vi n => decide (m ≤ n)
  | SVal.vs a, SVal.vs b => strLeB a b
  | _, _ => false

/-- Python tuple comparison of two seats: chamber first, district second. -/
def seatLeB (a b : Seat) : Bool :=
  if a.1 = b.1 then svalLeB a.2 b.2 else strLtB a.1 b.1

/-- The seat key `sort_operations` actually sorts by. -/
def codeKey (op : Op) : Seat := seatD (opKeyDoc op)

/-- The seat key the spec describes. -/
def specKey (op : Op) : Seat := seatD (specKeyDoc op)

/-- Stable insertion into a sorted list (a sorted prefix keeps earlier
operations before later equal-keyed ones, like Python's stable sort). -/
def insertOp (key : Op → Seat) (op : Op) : List Op → List Op
  | [] => [op]
  | o :: rest =>
    if seatLeB (key op) (key o) then op :: o :: rest else o :: insertOp key op rest

/-- Stable sort of the operation list by a seat key. -/
def sortOpsWith (key : Op → Seat) : List Op → List Op
  | [] => []
  | o :: rest => insertOp key o (sortOpsWith key rest)

/-- The method `PersonMerger.sort_operations`: sort by the seat of `op[1][0]`. -/
def sortOps : List Op → List Op := sortOpsWith codeKey

/-- Executing one deferred operation against the store (with saving
enabled).  Every branch first evaluates the seat used by its log line
(which raises when undefined): `create` then asserts the file is in the
incoming partition and saves a copy of it under the active partition;
`retire` runs the full `retire.py` flow; `update` runs the role end-dating,
merges and saves at the existing record's path. -/
def execOp (ed : String) (st : StoreSt) : Op → Option StoreSt
  | Op.create n => do
    let _ ← seat? n.data
    if n.path.part = Partition.incomingP then
      some ⟨saveFile st.files ⟨Partition.activeP, n.path.base⟩ n.data, st.committees⟩
    else none
  | Op.retire e => do
    let _ ← seat? e.data
    let res ← retireExec ed st e.path none false
    some res.1
  | Op.update e n => do
    let e' ← runUpdate ed e n
    some ⟨saveFile st.files e'.path e'.data, st.committees⟩

/-- The sort-key evaluation of `sort_operations`: the `seat` property of
every operation's key document is read while sorting, raising when any seat
is undefined. -/
def seatsOf : List Op → Option (List Seat)
  | [] => some []
  | op :: rest => do
    let s ← seat? (opKeyDoc op).data
    let ss ← seatsOf rest
    some (s :: ss)

/-- The method `PersonMerger.execute_deferred`: evaluate every operation's sort key
(raising when a seat is undefined), sort, then execute front to back. -/
def executeDeferred (ed : String) (st : StoreSt) (ops : List Op) : Option StoreSt := do
  let _ ← seatsOf ops
  (sortOps ops).foldlM (execOp ed) st

/-! ## Definitions: name similarity (modelled from the spec)

The spec's fuzzy pass computes "a normalized string-similarity ratio between
the two names (range 0.0–1.0, identical strings → 1.0)".  No such
computation exists in `akmerge.py` (`same_name` is exact equality, with a
`TODO: Levenshtein dist` comment); the similarity named by the code's TODO
and matching the spec's constraints is the Levenshtein-normalized one
defined here, used only to exhibit inputs the claimed fuzzy pass would have
to match. -/

/-- One row-extension step of the standard Levenshtein dynamic program. -/
def levGo (x : Char) : List Char → List Nat → Nat → List Nat
  | y :: ys, pprev :: prest, qprev =>
    let pj := prest.headD 0
    let q := if x = y then pprev else 1 + Nat.min pprev (Nat.min pj qprev)
    q :: levGo x ys prest q
  | _, _, _ => []

/-- Extend the previous DP row by one character of the first string. -/
def levRowStep (ys : List Char) (prev : List Nat) (x : Char) : List Nat :=
  let q0 := prev.headD 0 + 1
  q0 :: levGo x ys prev q0

/-- Levenshtein edit distance between two character lists. -/
def levDist (xs ys : List Char) : Nat :=
  (xs.foldl (levRowStep ys) (List.range (ys.length + 1))).getLastD 0

/-- Modelled from the spec: the normalized name-similarity ratio of the
described fuzzy pass (range 0–1, identical strings map to 1). -/
def specNameSim (a b : String) : ℚ :=
  if max a.toList.length b.toList.length = 0 then 1
  else 1 - (levDist a.toList b.toList : ℚ) / (max a.toList.length b.toList.length : ℚ)

/-! ## Definitions: concrete records used by witnesses and counterexamples -/

/-- An existing record "Jon Smith" in seat `(upper, 1)`. -/
def jonF : PFile :=
  ⟨⟨Partition.activeP, "jon.yml"⟩,
   { pid := "e1", pname := "Jon Smith",
     roles := [{ rtype := "upper", district := SVal.vs "1" }] }⟩

/-- An incoming record "John Smith" in the same seat `(upper, 1)`. -/
def johnF : PFile :=
  ⟨⟨Partition.incomingP, "john.yml"⟩,
   { pid := "n1", pname := "John Smith",
     roles := [{ rtype := "upper", district := SVal.vs "1" }] }⟩

/-- An existing record with a phones field. -/
def patEx : PFile :=
  ⟨⟨Partition.activeP, "pat.yml"⟩,
   { pid := "e2", pname := "Pat Doe",
     roles := [{ rtype := "lower", district := SVal.vs "4" }],
     fields := [("phones", FieldVal.flist [[("note", "Capitol"), ("value", "1")]])] }⟩

/-- The matching incoming record with the phones key entirely absent. -/
def patIn : PFile :=
  ⟨⟨Partition.incomingP, "pat.yml"⟩,
   { pid := "n2", pname := "Pat Doe",
     roles := [{ rtype := "lower", district := SVal.vs "4" }] }⟩

/-- An existing record "Ann Lee" whose incoming twin adds an email field. -/
def annEx : PFile :=
  ⟨⟨Partition.activeP, "ann.yml"⟩,
   { pid := "e3", pname := "Ann Lee",
     roles := [{ rtype := "upper", district := SVal.vs "2" }] }⟩

/-- The incoming "Ann Lee" with a new email field. -/
def annIn : PFile :=
  ⟨⟨Partition.incomingP, "ann.yml"⟩,
   { pid := "n3", pname := "Ann Lee",
     roles := [{ rtype := "upper", district := SVal.vs "2" }],
     fields := [("email", FieldVal.scalar "ann@leg.gov")] }⟩

/-- An existing record "Bob Roe" with no incoming twin. -/
def bobEx : PFile :=
  ⟨⟨Partition.activeP, "bob.yml"⟩,
   { pid := "e4", pname := "Bob Roe",
     roles := [{ rtype := "lower", district := SVal.vs "7" }] }⟩

/-- A create operation for seat `(lower, 3)`. -/
def opL3 : Op :=
  Op.create ⟨⟨Partition.incomingP, "l3.yml"⟩,
    { pid := "n5", pname := "Lu Three",
      roles := [{ rtype := "lower", district := SVal.vs "3" }] }⟩

/-- A retire operation for seat `(upper, 1)`. -/
def opU1 : Op :=
  Op.retire ⟨⟨Partition.activeP, "u1.yml"⟩,
    { pid := "e5", pname := "Upadhyay One",
      roles := [{ rtype := "upper", district := SVal.vs "1" }] }⟩

/-- A create operation for seat `(lower, 1)`. -/
def opL1 : Op :=
  Op.create ⟨⟨Partition.incomingP, "l1.yml"⟩,
    { pid := "n6", pname := "Lo One",
      roles := [{ rtype := "lower", district := SVal.vs "1" }] }⟩

/-- An update operation whose existing record sits in seat `(upper, 9)` and
whose incoming record sits in seat `(lower, 1)`. -/
def opUpd : Op :=
  Op.update
    ⟨⟨Partition.activeP, "mover.yml"⟩,
     { pid := "e6", pname := "Mo Ver",
       roles := [{ rtype := "upper", district := SVal.vs "9" }] }⟩
    ⟨⟨Partition.incomingP, "mover.yml"⟩,
     { pid := "n7", pname := "Mo Ver",
       roles := [{ rtype := "lower", district := SVal.vs "1" }] }⟩

/-- A create operation for seat `(lower, 3)` used alongside `opUpd`. -/
def opCr : Op :=
  Op.create ⟨⟨Partition.incomingP, "cr.yml"⟩,
    { pid := "n8", pname := "Cee Are",
      roles := [{ rtype := "lower", district := SVal.vs "3" }] }⟩

/-- An existing record in seat `(upper, 5)` matched by name to `mvIn`. -/
def mvEx : PFile :=
  ⟨⟨Partition.activeP, "vic.yml"⟩,
   { pid := "e7", pname := "Vic Move",
     roles := [{ rtype := "upper", district := SVal.vs "5" }] }⟩

/-- The incoming record for `mvEx`, now in seat `(upper, 7)`. -/
def mvIn : PFile :=
  ⟨⟨Partition.incomingP, "vic.yml"⟩,
   { pid := "n9", pname := "Vic Move",
     roles := [{ rtype := "upper", district := SVal.vs "7" }] }⟩

/-- A seat made of a chamber and an integer district (the only kind of seat
whose sort keys Python can compare without a `TypeError`). -/
def intSeat (s : Seat) : Prop := ∃ c d, s = (c, SVal.vi d)

/-- A person document sitting in the incoming partition. -/
def samP : Person :=
  { pid := "s1", pname := "Sam Poe",
    roles := [{ rtype := "upper", district := SVal.vs "2" }] }

/-- The incoming `PersonFile` for `samP`. -/
def samIncoming : PFile := ⟨⟨Partition.incomingP, "sam.yml"⟩, samP⟩

/-! ## Theorems -/

/-- C10: For every PersonFile, the derived seat is defined only when the
document's roles list is non-empty and the last role's district field is a
string; on an empty roles list, or on a district value that is not a string,
reading the seat property fails rather than returning a value. -/
theorem seat_defined_iff_last_role_district_string (p : Person) :
    (∃ s, seat? p = some s) ↔
      (p.roles ≠ [] ∧ ∃ r d, p.roles.getLast? = some r ∧ r.district = SVal.vs d) := by
  constructor
  · rintro ⟨s, hs⟩
    unfold seat? at hs
    rcases hlast : p.roles.getLast? with _ | r
    · rw [hlast] at hs; simp at hs
    · rw [hlast] at hs
      change roleSeat? r = some s at hs
      unfold roleSeat? at hs
      rcases hd : r.district with d | n
      · refine ⟨?_, r, d, rfl, hd⟩
        intro hnil; rw [hnil] at hlast; simp at hlast
      · rw [hd] at hs; simp at hs
  · rintro ⟨-, r, d, hlast, hd⟩
    refine ⟨(r.rtype, normDistrict d), ?_⟩
    unfold seat?
    rw [hlast]
    change roleSeat? r = _
    unfold roleSeat?
    rw [hd]

/-- Witness for the seat claim: a concrete person with one string-district
role has a defined seat, and a person with no roles does not. -/
theorem seat_defined_iff_last_role_district_string_witness :
    (∃ s, seat? { pid := "p1", pname := "Ann",
                  roles := [{ rtype := "upper", district := SVal.vs "5" }] } = some s) ∧
    ¬ (∃ s, seat? { pid := "p2", pname := "Bob", roles := [] } = some s) := by
  constructor
  · exact (seat_defined_iff_last_role_district_string _).mpr
      ⟨by decide, { rtype := "upper", district := SVal.vs "5" }, "5", rfl, rfl⟩
  · intro hc
    have h := (seat_defined_iff_last_role_district_string _).mp hc
    simp at h

theorem retireRolesLoop_eq (ed : String) (reason : Option String) (rs : List Role) :
    retireRolesLoop ed reason rs =
      (rs.map (retiredRole ed reason), rs.countP (fun r => roleIsActive r.end_date)) := by
  induction rs with
  | nil => simp [retireRolesLoop]
  | cons r rs ih =>
    simp only [retireRolesLoop, ih, retiredRole, List.map_cons, List.countP_cons]
    by_cases h : roleIsActive r.end_date = true
    · simp [h]
    · simp [h]

theorem retireMembershipsLoop_eq (pid ed : String) (ms : List Membership) :
    retireMembershipsLoop pid ed ms =
      (ms.map (retiredMembership pid ed),
       ms.countP (fun m => m.mid == some pid && roleIsActive m.end_date)) := by
  induction ms with
  | nil => simp [retireMembershipsLoop]
  | cons m ms ih =>
    simp only [retireMembershipsLoop, ih, retiredMembership, List.map_cons, List.countP_cons]
    by_cases h : (m.mid == some pid && roleIsActive m.end_date) = true
    · simp [h]
    · simp [h]

theorem retireCommitteesLoop_eq (pid ed : String) (cs : List Committee) :
    retireCommitteesLoop pid ed cs =
      (cs.map (fun c => Committee.mk (c.memberships.map (retiredMembership pid ed))),
       (cs.map (fun c =>
          c.memberships.countP (fun m => m.mid == some pid && roleIsActive m.end_date))).sum) := by
  induction cs with
  | nil => simp [retireCommitteesLoop]
  | cons c cs ih =>
    simp [retireCommitteesLoop, ih, retire_from_committee, retireMembershipsLoop_eq]

/-- C7: `retire` end-dates every active role on the person (setting
`end_date`, and `end_reason` when a reason is supplied), stamps a death date
and forces the reason to `"Deceased"` when the death flag is set, end-dates
every active membership entry whose id matches the person across all
committee documents, and reports a total affected-role count equal to the
number of person roles ended plus the number of committee memberships
ended. -/
theorem retire_enddates_roles_and_memberships_and_counts
    (ed : String) (person : Person) (committees : List Committee)
    (reason0 : Option String) (death : Bool) :
    retireDocs ed person committees reason0 death =
      ({ person with
           roles := person.roles.map (retiredRole ed (effectiveReason reason0 death)),
           death_date := if death then some ed else person.death_date },
       committees.map (fun c =>
         Committee.mk (c.memberships.map (retiredMembership person.pid ed))),
       person.roles.countP (fun r => roleIsActive r.end_date)
         + (committees.map (fun c =>
             c.memberships.countP
               (fun m => m.mid == some person.pid && roleIsActive m.end_date))).sum) ∧
    (∀ r ∈ person.roles, roleIsActive r.end_date →
       (retiredRole ed (effectiveReason reason0 death) r).end_date = some ed ∧
       (pyTruthy (effectiveReason reason0 death) →
         (retiredRole ed (effectiveReason reason0 death) r).end_reason
           = effectiveReason reason0 death)) ∧
    (∀ c ∈ committees, ∀ m ∈ c.memberships,
       m.mid = some person.pid → roleIsActive m.end_date →
       (retiredMembership person.pid ed m).end_date = some ed) := by
  refine ⟨?_, ?_, ?_⟩
  · simp [retireDocs, retire_person, retireRolesLoop_eq, retireCommitteesLoop_eq,
      effectiveReason]
  · intro r _ hact
    simp [retiredRole, hact]
    intro ht
    simp [ht]
  · intro c _ m _ hmid hact
    simp [retiredMembership, hmid, hact]

/-- Witness for the retire claim at a concrete person and committee:
one active person role plus one matching active membership gives count 2. -/
theorem retire_enddates_roles_and_memberships_and_counts_witness :
    retireDocs "2020-01-01"
        { pid := "p1", pname := "Ann",
          roles := [{ rtype := "upper", district := SVal.vs "5" },
                    { rtype := "lower", district := SVal.vs "2",
                      end_date := some "2010-01-01" }] }
        [⟨[{ mid := some "p1" }, { mid := some "p2" }]⟩] (some "lost seat") false
      = ({ pid := "p1", pname := "Ann",
           roles := [{ rtype := "upper", district := SVal.vs "5",
                       end_date := some "2020-01-01", end_reason := some "lost seat" },
                     { rtype := "lower", district := SVal.vs "2",
                       end_date := some "2010-01-01" }] },
         [⟨[{ mid := some "p1", end_date := some "2020-01-01" }, { mid := some "p2" }]⟩],
         2) := by
  have h := retire_enddates_roles_and_memberships_and_counts "2020-01-01"
      { pid := "p1", pname := "Ann",
        roles := [{ rtype := "upper", district := SVal.vs "5" },
                  { rtype := "lower", district := SVal.vs "2",
                    end_date := some "2010-01-01" }] }
      [⟨[{ mid := some "p1" }, { mid := some "p2" }]⟩] (some "lost seat") false
  rw [h.1]
  decide

theorem lookupFile_append (l1 l2 : FStore) (q : Path) :
    lookupFile (l1 ++ l2) q =
      match lookupFile l1 q with
      | some d => some d
      | none => lookupFile l2 q := by
  induction l1 with
  | nil => simp [lookupFile]
  | cons e fs ih =>
    by_cases he : e.1 = q
    · simp [lookupFile, he]
    · simpa [lookupFile, he] using ih

theorem lookupFile_dropPath_self (files : FStore) (p : Path) :
    lookupFile (dropPath files p) p = none := by
  induction files with
  | nil => simp [dropPath, lookupFile]
  | cons e fs ih =>
    by_cases he : e.1 = p
    · simpa [dropPath, he] using ih
    · simpa [dropPath, lookupFile, he] using ih

theorem lookupFile_dropPath_of_ne (files : FStore) (p q : Path) (hpq : ¬ q = p) :
    lookupFile (dropPath files p) q = lookupFile files q := by
  induction files with
  | nil => simp [dropPath]
  | cons e fs ih =>
    have hqp : ¬ p = q := fun hc => hpq hc.symm
    by_cases he : e.1 = p
    · have heq : ¬ e.1 = q := by rw [he]; exact hqp
      simp [dropPath, lookupFile, he, heq, hqp, ih]
    · by_cases heq : e.1 = q
      · simp [dropPath, lookupFile, he, heq, hpq]
      · simp [dropPath, lookupFile, he, heq, hpq, ih]

theorem lookupFile_saveFile_self (files : FStore) (p : Path) (d : Person) :
    lookupFile (saveFile files p d) p = some d := by
  unfold saveFile
  rw [lookupFile_append, lookupFile_dropPath_self]
  simp [lookupFile]

theorem lookupFile_saveFile_of_ne (files : FStore) (p q : Path) (d : Person) (hpq : ¬ q = p) :
    lookupFile (saveFile files p d) q = lookupFile files q := by
  unfold saveFile
  rw [lookupFile_append, lookupFile_dropPath_of_ne files p q hpq]
  cases h : lookupFile files q with
  | some d' => rfl
  | none =>
    have hqp : ¬ p = q := fun hc => hpq hc.symm
    simp [lookupFile, hqp]

/-- C8: Retiring a person who has zero active roles and no matching active
committee memberships reports an affected-role count of 0, is not treated as
an error (the run completes and returns a result), and still relocates the
person's record from the active partition to the retired partition. -/
theorem retire_zero_active_roles_zero_count_still_moves
    (ed : String) (st : StoreSt) (src : Path) (person : Person)
    (hload : lookupFile st.files src = some person)
    (hpart : src.part = Partition.activeP)
    (hroles : ∀ r ∈ person.roles, roleIsActive r.end_date = false)
    (hcoms : ∀ c ∈ st.committees, ∀ m ∈ c.memberships,
        (m.mid == some person.pid && roleIsActive m.end_date) = false)
    (hdst : lookupFile st.files ⟨Partition.retiredP, src.base⟩ = none) :
    ∃ st', retireExec ed st src none false = some (st', 0) ∧
      lookupFile st'.files ⟨Partition.retiredP, src.base⟩ = some person ∧
      lookupFile st'.files src = none := by
  have hmap : person.roles.map (retiredRole ed (effectiveReason none false)) = person.roles := by
    have : ∀ r ∈ person.roles, retiredRole ed (effectiveReason none false) r = id r := by
      intro r hr
      simp [retiredRole, hroles r hr]
    rw [List.map_congr_left this, List.map_id]
  have hperson : (retireDocs ed person st.committees none false).1 = person := by
    rw [(retire_enddates_roles_and_memberships_and_counts ed person st.committees none false).1]
    simp [hmap]
  have hcount : (retireDocs ed person st.committees none false).2.2 = 0 := by
    rw [(retire_enddates_roles_and_memberships_and_counts ed person st.committees none false).1]
    simp only
    rw [List.countP_eq_zero.mpr (by intro r hr; simpa using hroles r hr)]
    rw [List.sum_eq_zero, Nat.add_zero]
    intro x hx
    rcases List.mem_map.mp hx with ⟨c, hc, hcx⟩
    rw [← hcx]
    exact List.countP_eq_zero.mpr (fun m hm => by simpa using hcoms c hc m hm)
  have hsrcne : ¬ (⟨Partition.retiredP, src.base⟩ : Path) = src := by
    intro hc
    have hc2 : Partition.retiredP = src.part := congrArg Path.part hc
    rw [hpart] at hc2
    exact Partition.noConfusion hc2
  have hmv : moveFile (saveFile st.files src person) src =
      some (dropPath (saveFile st.files src person) src
        ++ [(⟨Partition.retiredP, src.base⟩, person)]) := by
    unfold moveFile
    rw [lookupFile_saveFile_self]
  unfold retireExec
  rw [hload]
  simp only [Option.bind_eq_bind, Option.some_bind]
  rw [hperson, hcount, hmv]
  simp only [Option.some_bind]
  refine ⟨_, rfl, ?_, ?_⟩
  · show lookupFile (dropPath (saveFile st.files src person) src
        ++ [(⟨Partition.retiredP, src.base⟩, person)]) ⟨Partition.retiredP, src.base⟩
      = some person
    rw [lookupFile_append, lookupFile_dropPath_of_ne _ _ _ hsrcne,
      lookupFile_saveFile_of_ne _ _ _ _ hsrcne, hdst]
    simp [lookupFile]
  · show lookupFile (dropPath (saveFile st.files src person) src
        ++ [(⟨Partition.retiredP, src.base⟩, person)]) src = none
    rw [lookupFile_append, lookupFile_dropPath_self]
    simp [lookupFile, hsrcne]

/-- Witness for the zero-active-roles retire claim: a store holding one
already-ended record in the active partition. -/
theorem retire_zero_active_roles_zero_count_still_moves_witness :
    ∃ st', retireExec "2021-06-30"
        ⟨[(⟨Partition.activeP, "carl.yml"⟩,
           { pid := "p9", pname := "Carl",
             roles := [{ rtype := "upper", district := SVal.vs "3",
                         end_date := some "2019-01-01" }] })],
          [⟨[{ mid := some "p9", end_date := some "2019-01-01" }]⟩]⟩
        ⟨Partition.activeP, "carl.yml"⟩ none false = some (st', 0) ∧
      lookupFile st'.files ⟨Partition.retiredP, "carl.yml"⟩ =
        some { pid := "p9", pname := "Carl",
               roles := [{ rtype := "upper", district := SVal.vs "3",
                           end_date := some "2019-01-01" }] } ∧
      lookupFile st'.files ⟨Partition.activeP, "carl.yml"⟩ = none := by
  exact retire_zero_active_roles_zero_count_still_moves "2021-06-30" _ _ _
    (by decide) rfl (by decide) (by decide) (by decide)

/-- C9, evaluated at the failing input: executing a create for an incoming
file saves a copy of the record under the active partition and leaves the
incoming file in place, so after the operation the record is present in the
incoming and the active partition at once — the create is a copy, not the
move the code's own comment ("moving the yaml file from /incoming/ to
/data/") and the claim describe. -/
theorem create_leaves_record_in_both_partitions :
    execOp "2020-07-01" ⟨[(⟨Partition.incomingP, "sam.yml"⟩, samP)], []⟩ (Op.create samIncoming)
      = some ⟨[(⟨Partition.incomingP, "sam.yml"⟩, samP),
               (⟨Partition.activeP, "sam.yml"⟩, samP)], []⟩ ∧
    lookupFile [(⟨Partition.incomingP, "sam.yml"⟩, samP),
                (⟨Partition.activeP, "sam.yml"⟩, samP)] ⟨Partition.incomingP, "sam.yml"⟩
      = some samP ∧
    lookupFile [(⟨Partition.incomingP, "sam.yml"⟩, samP),
                (⟨Partition.activeP, "sam.yml"⟩, samP)] ⟨Partition.activeP, "sam.yml"⟩
      = some samP := by
  decide

theorem runUpdate_eq (ed : String) (e n e' : PFile) (hrun : runUpdate ed e n = some e') :
    ∃ roles', endRolesLoop ed (seat? n.data) e.data.roles = some roles' ∧
      e' = { e with data := merge_people { e.data with roles := roles' } n.data } := by
  unfold runUpdate at hrun
  cases h1 : endRolesLoop ed (seat? n.data) e.data.roles with
  | none => rw [h1] at hrun; simp at hrun
  | some roles' =>
    rw [h1] at hrun
    simp only [Option.bind_eq_bind, Option.some_bind] at hrun
    cases h2 : seat? { e.data with roles := roles' } with
    | none => rw [h2] at hrun; simp at hrun
    | some s =>
      rw [h2] at hrun
      simp only [Option.some_bind, Option.some_inj] at hrun
      exact ⟨roles', rfl, hrun.symm⟩

theorem seat?_eq_of_roles_eq (p q : Person) (h : p.roles = q.roles) : seat? p = seat? q := by
  unfold seat?
  rw [h]

/-- C4: For every successful update of a matched (existing, incoming) pair,
the merged document's id equals the existing document's original id (and it
is saved at the existing record's path); a merge never rewrites id with the
incoming document's value. -/
theorem update_merge_keeps_existing_id (ed : String) (e n e' : PFile)
    (hrun : runUpdate ed e n = some e') :
    e'.data.pid = e.data.pid ∧ e'.path = e.path := by
  obtain ⟨roles', h1, h2⟩ := runUpdate_eq ed e n e' hrun
  subst h2
  exact ⟨rfl, rfl⟩

/-- Witness for the id claim: the concrete Ann update keeps id `"e3"` even
though the incoming document's id is `"n3"`. -/
theorem update_merge_keeps_existing_id_witness :
    ({ path := ⟨Partition.activeP, "ann.yml"⟩,
       data := { pid := "e3", pname := "Ann Lee",
                 roles := [{ rtype := "upper", district := SVal.vs "2" }],
                 fields := [("email", FieldVal.scalar "ann@leg.gov")] } } : PFile).data.pid
        = annEx.data.pid ∧
    ({ path := ⟨Partition.activeP, "ann.yml"⟩,
       data := { pid := "e3", pname := "Ann Lee",
                 roles := [{ rtype := "upper", district := SVal.vs "2" }],
                 fields := [("email", FieldVal.scalar "ann@leg.gov")] } } : PFile).path
        = annEx.path :=
  update_merge_keeps_existing_id "2020-07-01" annEx annIn _ (by decide)

theorem endRolesLoop_some_eq_map (ed : String) (ns : Seat) :
    ∀ (rs rs' : List Role), endRolesLoop ed (some ns) rs = some rs' →
      rs' = rs.map (fun r =>
        if roleIsActive r.end_date && !(roleSeat? r == some ns)
        then { r with end_date := some ed } else r) := by
  intro rs
  induction rs with
  | nil =>
    intro rs' h
    simp only [endRolesLoop, Option.some_inj] at h
    simp [h.symm]
  | cons r rest ih =>
    intro rs' h
    unfold endRolesLoop at h
    cases hs : roleSeat? r with
    | none => rw [hs] at h; simp at h
    | some s =>
      rw [hs] at h
      simp only [Option.bind_eq_bind, Option.some_bind] at h
      by_cases hact : roleIsActive r.end_date = true
      · rw [if_pos hact] at h
        cases hrec : endRolesLoop ed (some ns) rest with
        | none => rw [hrec] at h; simp at h
        | some rest' =>
          rw [hrec] at h
          simp only [Option.some_bind, Option.some_inj] at h
          rw [← h, ih rest' hrec]
          simp only [List.map_cons, hs, hact, Bool.true_and]
          by_cases hsn : s = ns
          · simp [hsn]
          · simp [hsn]
      · rw [if_neg hact] at h
        cases hrec : endRolesLoop ed (some ns) rest with
        | none => rw [hrec] at h; simp at h
        | some rest' =>
          rw [hrec] at h
          simp only [Option.some_bind, Option.some_inj] at h
          rw [← h, ih rest' hrec]
          simp only [List.map_cons]
          rw [if_neg (by simp [hact])]

/-- C6: When an Update executes for a matched pair, every role of the
existing record that is active and whose seat differs from the incoming
record's current seat is end-dated with the operation's end date before the
merge, and the merged document's current seat equals the incoming record's
current seat. -/
theorem update_enddates_moved_roles_and_takes_incoming_seat
    (ed : String) (e n e' : PFile) (sn : Seat)
    (hn : seat? n.data = some sn)
    (hrun : runUpdate ed e n = some e') :
    endRolesLoop ed (some sn) e.data.roles
      = some (e.data.roles.map (fun r =>
          if roleIsActive r.end_date && !(roleSeat? r == some sn)
          then { r with end_date := some ed } else r)) ∧
    seat? e'.data = some sn := by
  obtain ⟨roles', h1, h2⟩ := runUpdate_eq ed e n e' hrun
  rw [hn] at h1
  constructor
  · rw [h1, Option.some_inj]
    exact endRolesLoop_some_eq_map ed sn e.data.roles roles' h1
  · subst h2
    have hroles : (merge_people { e.data with roles := roles' } n.data).roles = n.data.roles :=
      rfl
    calc seat? (merge_people { e.data with roles := roles' } n.data)
        = seat? n.data := seat?_eq_of_roles_eq _ _ hroles
      _ = some sn := hn

/-- Witness for the seat-change claim: the spec's `(upper, 5)` to
`(upper, 7)` example, where the old role is end-dated and the merged
document sits in seat `(upper, 7)`. -/
theorem update_enddates_moved_roles_and_takes_incoming_seat_witness :
    endRolesLoop "2020-07-01" (some ("upper", SVal.vi 7)) mvEx.data.roles
      = some (mvEx.data.roles.map (fun r =>
          if roleIsActive r.end_date && !(roleSeat? r == some ("upper", SVal.vi 7))
          then { r with end_date := some "2020-07-01" } else r)) ∧
    seat? ({ path := ⟨Partition.activeP, "vic.yml"⟩,
             data := { pid := "e7", pname := "Vic Move",
                       roles := [{ rtype := "upper", district := SVal.vs "7" }] } }
            : PFile).data = some ("upper", SVal.vi 7) :=
  update_enddates_moved_roles_and_takes_incoming_seat "2020-07-01" mvEx mvIn _
    ("upper", SVal.vi 7) (by decide) (by decide)

/-- C1, counterexample: the names "Jon Smith" and "John Smith" have
similarity above the 0.7 threshold and the two records sit in the same
seat, yet the run leaves the cross pair unmatched — the handled set and the
pair list stay empty and the records fall through to a retire plus a
create, because `same_name` is exact string equality and no fuzzy pass
exists in the code. -/
theorem similar_name_same_seat_pair_not_matched_cex :
    (7 : ℚ)/10 < specNameSim "Jon Smith" "John Smith" ∧
    seat? jonF.data = seat? johnF.data ∧
    ¬ jonF.data.pname = johnF.data.pname ∧
    mergeRun [jonF] [johnF] = some ([], [], [Op.retire jonF, Op.create johnF]) := by
  refine ⟨?_, by decide, by decide, by decide⟩
  have hld : levDist "Jon Smith".toList "John Smith".toList = 1 := by decide
  have hlen : max "Jon Smith".toList.length "John Smith".toList.length = 10 := by decide
  simp only [specNameSim, hld, hlen]
  norm_num

/-- Facts extracted from a successful `findMatch`. -/
theorem findMatch_spec (h : List String) (nws : List PFile) (e n : PFile)
    (hfm : findMatch h nws e = some n) :
    n ∈ nws ∧ ¬ n.data.pid ∈ h ∧ e.data.pname = n.data.pname := by
  have hmem := List.mem_of_find?_eq_some hfm
  have hp := List.find?_some hfm
  have hp2 := of_decide_eq_true hp
  exact ⟨hmem, hp2.1, hp2.2⟩

/-- The invariant of the matching pass: the final handled set is the initial
one plus the ids of the matched pairs; every matched pair joins an existing
record to an incoming record with exactly equal names and ids unhandled at
entry; the scheduled updates are exactly the pairs with non-empty filtered
differences, in order; and no id appears in two pairs. -/
theorem matchPass_invariant (nws : List PFile) :
    ∀ (ex : List PFile) (h0 h : List String) (ps : List (PFile × PFile)) (mops : List Op),
      matchPass nws ex h0 = some (h, ps, mops) →
      ((∀ x, x ∈ h ↔ (x ∈ h0 ∨ ∃ p ∈ ps, x = p.1.data.pid ∨ x = p.2.data.pid)) ∧
       (∀ p ∈ ps, p.1 ∈ ex ∧ p.2 ∈ nws ∧ p.1.data.pname = p.2.data.pname ∧
          ¬ p.1.data.pid ∈ h0 ∧ ¬ p.2.data.pid ∈ h0) ∧
       mops = (ps.filter (fun p => ¬ compare_objects p.1.data p.2.data = [])).map
                (fun p => Op.update p.1 p.2) ∧
       ps.Pairwise (fun p q =>
         ¬ q.1.data.pid = p.1.data.pid ∧ ¬ q.1.data.pid = p.2.data.pid ∧
         ¬ q.2.data.pid = p.1.data.pid ∧ ¬ q.2.data.pid = p.2.data.pid)) := by
  intro ex
  induction ex with
  | nil =>
    intro h0 h ps mops hrun
    unfold matchPass at hrun
    simp only [Option.some_inj] at hrun
    obtain ⟨rfl, rfl, rfl⟩ := hrun
    refine ⟨fun x => ?_, by simp, rfl, List.Pairwise.nil⟩
    simp
  | cons e rest ih =>
    intro h0 h ps mops hrun
    unfold matchPass at hrun
    by_cases hmem : e.data.pid ∈ h0
    · rw [if_pos hmem] at hrun
      obtain ⟨inv1, inv2, inv3, inv4⟩ := ih h0 h ps mops hrun
      refine ⟨inv1, fun p hp => ?_, inv3, inv4⟩
      obtain ⟨a, b, c, d, f⟩ := inv2 p hp
      exact ⟨List.mem_cons_of_mem _ a, b, c, d, f⟩
    · rw [if_neg hmem] at hrun
      cases hfm : findMatch h0 nws e with
      | none =>
        rw [hfm] at hrun
        obtain ⟨inv1, inv2, inv3, inv4⟩ := ih h0 h ps mops hrun
        refine ⟨inv1, fun p hp => ?_, inv3, inv4⟩
        obtain ⟨a, b, c, d, f⟩ := inv2 p hp
        exact ⟨List.mem_cons_of_mem _ a, b, c, d, f⟩
      | some n =>
        rw [hfm] at hrun
        dsimp only at hrun
        obtain ⟨hnmem, hnh, hname⟩ := findMatch_spec h0 nws e n hfm
        cases hseat : seat? n.data with
        | none => rw [hseat] at hrun; simp at hrun
        | some s =>
          rw [hseat] at hrun
          simp only [Option.bind_eq_bind, Option.some_bind] at hrun
          cases hrec : matchPass nws rest (e.data.pid :: n.data.pid :: h0) with
          | none => rw [hrec] at hrun; simp at hrun
          | some res =>
            rw [hrec] at hrun
            simp only [Option.some_bind, Option.some_inj] at hrun
            obtain ⟨rfl, rfl, rfl⟩ := hrun
            obtain ⟨inv1, inv2, inv3, inv4⟩ :=
              ih (e.data.pid :: n.data.pid :: h0) res.1 res.2.1 res.2.2 hrec
            refine ⟨fun x => ?_, fun p hp => ?_, ?_, ?_⟩
            · rw [inv1 x]
              simp only [List.mem_cons]
              constructor
              · rintro ((rfl | rfl | hx) | ⟨p, hp, hpe⟩)
                · exact Or.inr ⟨(e, n), Or.inl rfl, Or.inl rfl⟩
                · exact Or.inr ⟨(e, n), Or.inl rfl, Or.inr rfl⟩
                · exact Or.inl hx
                · exact Or.inr ⟨p, Or.inr hp, hpe⟩
              · rintro (hx | ⟨p, hp, hpe⟩)
                · exact Or.inl (Or.inr (Or.inr hx))
                · rcases hp with rfl | hp'
                  · rcases hpe with rfl | rfl
                    · exact Or.inl (Or.inl rfl)
                    · exact Or.inl (Or.inr (Or.inl rfl))
                  · exact Or.inr ⟨p, hp', hpe⟩
            · rcases List.mem_cons.mp hp with rfl | hp'
              · exact ⟨List.mem_cons_self _ _, hnmem, hname, hmem, hnh⟩
              · obtain ⟨a, b, c, d, f⟩ := inv2 p hp'
                refine ⟨List.mem_cons_of_mem _ a, b, c, ?_, ?_⟩
                · intro hc
                  exact d (List.mem_cons_of_mem _ (List.mem_cons_of_mem _ hc))
                · intro hc
                  exact f (List.mem_cons_of_mem _ (List.mem_cons_of_mem _ hc))
            · rw [inv3, List.filter_cons]
              by_cases hdiff : compare_objects e.data n.data = []
              · rw [if_pos hdiff]
                rw [if_neg (by simpa using hdiff)]
                simp
              · rw [if_neg hdiff]
                rw [if_pos (by simpa using hdiff)]
                simp
            · refine List.Pairwise.cons (fun q hq => ?_) inv4
              obtain ⟨-, -, -, d, f⟩ := inv2 q hq
              simp only [List.mem_cons, not_or] at d f
              exact ⟨d.1, d.2.1, f.1, f.2.1⟩

/-- C1, amended: the matcher has no fuzzy pass — `same_name` is exact string
equality (similarity is an unimplemented TODO), so every matched pair has
exactly equal names, and a same-seat pair with merely similar names falls
through to a retire plus a create. -/
theorem matched_pairs_have_exactly_equal_names
    (ex nws : List PFile) (h : List String) (ps : List (PFile × PFile)) (mops : List Op)
    (hrun : matchPass nws ex [] = some (h, ps, mops)) :
    ∀ p ∈ ps, p.1.data.pname = p.2.data.pname := by
  intro p hp
  exact ((matchPass_invariant nws ex [] h ps mops hrun).2.1 p hp).2.2.1

/-- Witness for the exact-name matching claim at the concrete Ann pair. -/
theorem matched_pairs_have_exactly_equal_names_witness :
    annEx.data.pname = annIn.data.pname :=
  matched_pairs_have_exactly_equal_names [annEx, bobEx] [annIn] ["e3", "n3"]
    [(annEx, annIn)] [Op.update annEx annIn] (by decide) (annEx, annIn) (by decide)

/-- C3: an Update operation is scheduled for a matched pair if and only if
the filtered difference set (differences where the incoming document
supplies genuinely new information) is non-empty — the scheduled updates are
exactly those pairs, so a field present only in the existing document never
by itself triggers an update. -/
theorem update_scheduled_iff_new_information
    (ex nws : List PFile) (h : List String) (ps : List (PFile × PFile)) (mops : List Op)
    (hrun : matchPass nws ex [] = some (h, ps, mops)) :
    mops = (ps.filter (fun p => ¬ compare_objects p.1.data p.2.data = [])).map
             (fun p => Op.update p.1 p.2) ∧
    ∀ p ∈ ps, (Op.update p.1 p.2 ∈ mops ↔ ¬ compare_objects p.1.data p.2.data = []) := by
  have inv3 := (matchPass_invariant nws ex [] h ps mops hrun).2.2.1
  refine ⟨inv3, fun p hp => ?_⟩
  rw [inv3]
  constructor
  · intro hin
    obtain ⟨q, hq, hqe⟩ := List.mem_map.mp hin
    obtain ⟨-, hqP⟩ := List.mem_filter.mp hq
    have : q = p := by
      have h1 : q.1 = p.1 := congrArg (fun o => match o with
        | Op.update a _ => a
        | _ => q.1) hqe
      have h2 : q.2 = p.2 := congrArg (fun o => match o with
        | Op.update _ b => b
        | _ => q.2) hqe
      exact Prod.ext h1 h2
    subst this
    simpa using hqP
  · intro hdiff
    exact List.mem_map.mpr ⟨p, List.mem_filter.mpr ⟨hp, by simpa using hdiff⟩, rfl⟩

/-- Witness for the update-iff-new-information claim: the Pat pair, where
the incoming record omits the phones key entirely, is matched but schedules
no update. -/
theorem update_scheduled_iff_new_information_witness :
    (([] : List Op) = (([(patEx, patIn)].filter
        (fun p => ¬ compare_objects p.1.data p.2.data = [])).map
        (fun p => Op.update p.1 p.2))) ∧
    (Op.update patEx patIn ∈ ([] : List Op) ↔
      ¬ compare_objects patEx.data patIn.data = []) := by
  have h := update_scheduled_iff_new_information [patEx] [patIn] ["e2", "n2"]
    [(patEx, patIn)] [] (by decide)
  exact ⟨h.1, h.2 (patEx, patIn) (by decide)⟩


/-- A list without duplicates holds exactly one element satisfying a
predicate when a member satisfies it and every satisfying member equals
it. -/
theorem countP_one_of_unique {α : Type} (P : α → Bool) :
    ∀ (l : List α), l.Nodup → ∀ a, a ∈ l → P a = true →
      (∀ b ∈ l, P b = true → b = a) → l.countP P = 1 := by
  intro l
  induction l with
  | nil =>
    intro _ a ha
    exact absurd ha (List.not_mem_nil a)
  | cons x xs ih =>
    intro hnd a ha hPa hu
    rw [List.countP_cons]
    rcases List.mem_cons.mp ha with rfl | ha'
    · have h0 : xs.countP P = 0 := by
        apply List.countP_eq_zero.mpr
        intro b hb hPb
        have hba : b = a := hu b (List.mem_cons_of_mem _ hb) hPb
        rw [hba] at hb
        exact absurd hb (List.nodup_cons.mp hnd).1
      rw [h0, hPa]
      simp
    · have hPx : P x = false := by
        by_contra hc
        have hx : x = a := hu x (List.mem_cons_self _ _) (by simpa using hc)
        rw [hx] at hnd
        exact absurd ha' (List.nodup_cons.mp hnd).1
      rw [hPx]
      simp only [if_neg Bool.false_ne_true, Nat.add_zero]
      exact ih (List.nodup_cons.mp hnd).2 a ha' hPa
        (fun b hb hPb => hu b (List.mem_cons_of_mem _ hb) hPb)

/-- C5: with distinct record ids, each existing record whose id is still
unhandled after the matching pass yields exactly one Retire operation and no
matched pair, each handled existing record yields no Retire and exactly one
matched pair (and symmetrically for incoming records and Create), and no id
appears in two matched pairs — every record receives exactly one outcome. -/
theorem every_record_gets_exactly_one_outcome
    (ex nws : List PFile) (h : List String) (ps : List (PFile × PFile)) (mops : List Op)
    (hnd : ((ex ++ nws).map (fun f => f.data.pid)).Nodup)
    (hrun : matchPass nws ex [] = some (h, ps, mops)) :
    (∀ f ∈ ex,
      (¬ f.data.pid ∈ h ∧
        (mops ++ retirePass ex h ++ createPass nws h).countP (fun o => o = Op.retire f) = 1 ∧
        ps.countP (fun p => p.1 = f) = 0)
      ∨ (f.data.pid ∈ h ∧
        (mops ++ retirePass ex h ++ createPass nws h).countP (fun o => o = Op.retire f) = 0 ∧
        ps.countP (fun p => p.1 = f) = 1)) ∧
    (∀ g ∈ nws,
      (¬ g.data.pid ∈ h ∧
        (mops ++ retirePass ex h ++ createPass nws h).countP (fun o => o = Op.create g) = 1 ∧
        ps.countP (fun p => p.2 = g) = 0)
      ∨ (g.data.pid ∈ h ∧
        (mops ++ retirePass ex h ++ createPass nws h).countP (fun o => o = Op.create g) = 0 ∧
        ps.countP (fun p => p.2 = g) = 1)) ∧
    (ps.map (fun p => p.1.data.pid)).Nodup ∧
    (ps.map (fun p => p.2.data.pid)).Nodup := by
  obtain ⟨inv1, inv2, inv3, inv4⟩ := matchPass_invariant nws ex [] h ps mops hrun
  rw [List.map_append] at hnd
  obtain ⟨hndEx, hndNw, hdisj⟩ := List.nodup_append.mp hnd
  have hps1 : (ps.map (fun p => p.1.data.pid)).Nodup := by
    refine List.Pairwise.map _ ?_ inv4
    intro p q hpq hc
    exact hpq.1 hc.symm
  have hps2 : (ps.map (fun p => p.2.data.pid)).Nodup := by
    refine List.Pairwise.map _ ?_ inv4
    intro p q hpq hc
    exact hpq.2.2.2 hc.symm
  have hpsNd : ps.Nodup := hps1.of_map
  have hinjEx : ∀ a ∈ ex, ∀ b ∈ ex, a.data.pid = b.data.pid → a = b :=
    fun a ha b hb hab => List.inj_on_of_nodup_map hndEx ha hb hab
  have hinjNw : ∀ a ∈ nws, ∀ b ∈ nws, a.data.pid = b.data.pid → a = b :=
    fun a ha b hb hab => List.inj_on_of_nodup_map hndNw ha hb hab
  have hinjPs1 : ∀ p ∈ ps, ∀ q ∈ ps, p.1.data.pid = q.1.data.pid → p = q :=
    fun p hp q hq hpq => List.inj_on_of_nodup_map hps1 hp hq hpq
  have hinjPs2 : ∀ p ∈ ps, ∀ q ∈ ps, p.2.data.pid = q.2.data.pid → p = q :=
    fun p hp q hq hpq => List.inj_on_of_nodup_map hps2 hp hq hpq
  refine ⟨fun f hf => ?_, fun g hg => ?_, hps1, hps2⟩
  · have cm : mops.countP (fun o => o = Op.retire f) = 0 := by
      apply List.countP_eq_zero.mpr
      intro o ho
      rw [inv3] at ho
      obtain ⟨q, _, rfl⟩ := List.mem_map.mp ho
      simp
    have cc : (createPass nws h).countP (fun o => o = Op.retire f) = 0 := by
      apply List.countP_eq_zero.mpr
      intro o ho
      unfold createPass at ho
      obtain ⟨q, _, rfl⟩ := List.mem_map.mp ho
      simp
    by_cases hfh : f.data.pid ∈ h
    · right
      refine ⟨hfh, ?_, ?_⟩
      · rw [List.countP_append, List.countP_append, cm, cc]
        have cr : (retirePass ex h).countP (fun o => o = Op.retire f) = 0 := by
          apply List.countP_eq_zero.mpr
          intro o ho
          unfold retirePass at ho
          obtain ⟨q, hq, rfl⟩ := List.mem_map.mp ho
          obtain ⟨hqEx, hqH⟩ := List.mem_filter.mp hq
          simp only [decide_eq_true_eq]
          intro hc
          have hqf : q = f := by injection hc
          rw [hqf] at hqH
          exact (of_decide_eq_true hqH) hfh
        rw [cr]
      · rcases (inv1 f.data.pid).mp hfh with hx0 | ⟨p, hp, hpe⟩
        · exact absurd hx0 (List.not_mem_nil _)
        · have hfp1 : p.1 = f := by
            rcases hpe with hpe1 | hpe2
            · exact hinjEx p.1 (inv2 p hp).1 f hf hpe1.symm
            · exfalso
              refine hdisj (List.mem_map.mpr ⟨f, hf, rfl⟩) ?_
              rw [hpe2]
              exact List.mem_map.mpr ⟨p.2, (inv2 p hp).2.1, rfl⟩
          apply countP_one_of_unique _ ps hpsNd p hp (by simp [hfp1])
          intro q hq hPq
          have hq1 : q.1 = f := by simpa using hPq
          exact hinjPs1 q hq p hp (by rw [hq1, hfp1])
    · left
      refine ⟨hfh, ?_, ?_⟩
      · rw [List.countP_append, List.countP_append, cm, cc]
        have cr : (retirePass ex h).countP (fun o => o = Op.retire f) = 1 := by
          unfold retirePass
          rw [List.countP_map]
          apply countP_one_of_unique _ _ (List.Nodup.filter _ (List.Nodup.of_map _ hndEx)) f
            (List.mem_filter.mpr ⟨hf, by simpa using hfh⟩) (by simp)
          intro q hq hPq
          have : Op.retire q = Op.retire f := by simpa using hPq
          injection this
        rw [cr]
      · apply List.countP_eq_zero.mpr
        intro p hp
        simp only [decide_eq_true_eq]
        intro hc
        apply hfh
        apply (inv1 f.data.pid).mpr
        exact Or.inr ⟨p, hp, Or.inl (by rw [hc])⟩
  · have cm : mops.countP (fun o => o = Op.create g) = 0 := by
      apply List.countP_eq_zero.mpr
      intro o ho
      rw [inv3] at ho
      obtain ⟨q, _, rfl⟩ := List.mem_map.mp ho
      simp
    have cr0 : (retirePass ex h).countP (fun o => o = Op.create g) = 0 := by
      apply List.countP_eq_zero.mpr
      intro o ho
      unfold retirePass at ho
      obtain ⟨q, _, rfl⟩ := List.mem_map.mp ho
      simp
    by_cases hgh : g.data.pid ∈ h
    · right
      refine ⟨hgh, ?_, ?_⟩
      · rw [List.countP_append, List.countP_append, cm, cr0]
        have cc : (createPass nws h).countP (fun o => o = Op.create g) = 0 := by
          apply List.countP_eq_zero.mpr
          intro o ho
          unfold createPass at ho
          obtain ⟨q, hq, rfl⟩ := List.mem_map.mp ho
          obtain ⟨hqNw, hqH⟩ := List.mem_filter.mp hq
          simp only [decide_eq_true_eq]
          intro hc
          have hqg : q = g := by injection hc
          rw [hqg] at hqH
          exact (of_decide_eq_true hqH) hgh
        rw [cc]
      · rcases (inv1 g.data.pid).mp hgh with hx0 | ⟨p, hp, hpe⟩
        · exact absurd hx0 (List.not_mem_nil _)
        · have hgp2 : p.2 = g := by
            rcases hpe with hpe1 | hpe2
            · exfalso
              refine hdisj ?_ (List.mem_map.mpr ⟨g, hg, rfl⟩)
              rw [hpe1]
              exact List.mem_map.mpr ⟨p.1, (inv2 p hp).1, rfl⟩
            · exact hinjNw p.2 (inv2 p hp).2.1 g hg hpe2.symm
          apply countP_one_of_unique _ ps hpsNd p hp (by simp [hgp2])
          intro q hq hPq
          have hq2 : q.2 = g := by simpa using hPq
          exact hinjPs2 q hq p hp (by rw [hq2, hgp2])
    · left
      refine ⟨hgh, ?_, ?_⟩
      · rw [List.countP_append, List.countP_append, cm, cr0]
        have cc : (createPass nws h).countP (fun o => o = Op.create g) = 1 := by
          unfold createPass
          rw [List.countP_map]
          apply countP_one_of_unique _ _ (List.Nodup.filter _ (List.Nodup.of_map _ hndNw)) g
            (List.mem_filter.mpr ⟨hg, by simpa using hgh⟩) (by simp)
          intro q hq hPq
          have : Op.create q = Op.create g := by simpa using hPq
          injection this
        rw [cc]
      · apply List.countP_eq_zero.mpr
        intro p hp
        simp only [decide_eq_true_eq]
        intro hc
        apply hgh
        apply (inv1 g.data.pid).mpr
        exact Or.inr ⟨p, hp, Or.inr (by rw [hc])⟩


/-- Witness for the one-outcome claim: Ann is matched (no retire, one pair),
Bob is retired exactly once, and the incoming Ann creates nothing. -/
theorem every_record_gets_exactly_one_outcome_witness :
    (∀ f ∈ [annEx, bobEx],
      (¬ f.data.pid ∈ ["e3", "n3"] ∧
        (([Op.update annEx annIn] ++ retirePass [annEx, bobEx] ["e3", "n3"]
          ++ createPass [annIn] ["e3", "n3"]).countP (fun o => o = Op.retire f) = 1) ∧
        ([(annEx, annIn)].countP (fun p => p.1 = f) = 0))
      ∨ (f.data.pid ∈ ["e3", "n3"] ∧
        (([Op.update annEx annIn] ++ retirePass [annEx, bobEx] ["e3", "n3"]
          ++ createPass [annIn] ["e3", "n3"]).countP (fun o => o = Op.retire f) = 0) ∧
        ([(annEx, annIn)].countP (fun p => p.1 = f) = 1))) ∧
    (∀ g ∈ [annIn],
      (¬ g.data.pid ∈ ["e3", "n3"] ∧
        (([Op.update annEx annIn] ++ retirePass [annEx, bobEx] ["e3", "n3"]
          ++ createPass [annIn] ["e3", "n3"]).countP (fun o => o = Op.create g) = 1) ∧
        ([(annEx, annIn)].countP (fun p => p.2 = g) = 0))
      ∨ (g.data.pid ∈ ["e3", "n3"] ∧
        (([Op.update annEx annIn] ++ retirePass [annEx, bobEx] ["e3", "n3"]
          ++ createPass [annIn] ["e3", "n3"]).countP (fun o => o = Op.create g) = 0) ∧
        ([(annEx, annIn)].countP (fun p => p.2 = g) = 1))) ∧
    ([(annEx, annIn)].map (fun p => p.1.data.pid)).Nodup ∧
    ([(annEx, annIn)].map (fun p => p.2.data.pid)).Nodup :=
  every_record_gets_exactly_one_outcome [annEx, bobEx] [annIn] ["e3", "n3"]
    [(annEx, annIn)] [Op.update annEx annIn] (by decide) (by decide)

theorem charListLt_irrefl : ∀ as : List Char, charListLt as as = false := by
  intro as
  induction as with
  | nil => rfl
  | cons a as ih => simp [charListLt, ih]

theorem charListLt_total : ∀ as bs : List Char, ¬ as = bs →
    charListLt as bs = true ∨ charListLt bs as = true := by
  intro as
  induction as with
  | nil =>
    intro bs hne
    cases bs with
    | nil => exact absurd rfl hne
    | cons b bs => exact Or.inl rfl
  | cons a as ih =>
    intro bs hne
    cases bs with
    | nil => exact Or.inr rfl
    | cons b bs =>
      by_cases hab : a = b
      · subst hab
        have htail : ¬ as = bs := by
          intro hc
          exact hne (by rw [hc])
        rcases ih bs htail with hlt | hlt
        · exact Or.inl (by simp [charListLt, hlt])
        · exact Or.inr (by simp [charListLt, hlt])
      · have hba : ¬ b = a := fun hh => hab hh.symm
        rcases lt_or_gt_of_ne hab with hlt | hlt
        · exact Or.inl (by simp [charListLt, hab, hlt])
        · exact Or.inr (by simp [charListLt, hba, hlt])

theorem charListLt_trans : ∀ as bs cs : List Char,
    charListLt as bs = true → charListLt bs cs = true → charListLt as cs = true := by
  intro as
  induction as with
  | nil =>
    intro bs cs h1 h2
    cases bs with
    | nil => exact h2
    | cons b bs =>
      cases cs with
      | nil => simp [charListLt] at h2
      | cons c cs => rfl
  | cons a as ih =>
    intro bs cs h1 h2
    cases bs with
    | nil => simp [charListLt] at h1
    | cons b bs =>
      cases cs with
      | nil => simp [charListLt] at h2
      | cons c cs =>
        by_cases hab : a = b <;> by_cases hbc : b = c
        · subst hab
          subst hbc
          simp only [charListLt, if_pos rfl] at h1 h2 ⊢
          exact ih bs cs h1 h2
        · subst hab
          simp only [charListLt, if_pos rfl] at h1
          simp only [charListLt, if_neg hbc] at h2
          simp [charListLt, hbc, h2]
        · subst hbc
          simp only [charListLt, if_neg hab] at h1
          simp [charListLt, hab, h1]
        · simp only [charListLt, if_neg hab] at h1
          simp only [charListLt, if_neg hbc] at h2
          simp only [decide_eq_true_eq] at h1 h2
          have hac : a < c := lt_trans h1 h2
          simp [charListLt, ne_of_lt hac, hac]

theorem strLtB_not_eq {a b : String} (h : strLtB a b = true) : ¬ a = b := by
  intro hc
  subst hc
  rw [strLtB, charListLt_irrefl] at h
  exact Bool.false_ne_true h

theorem strLtB_total {a b : String} (hne : ¬ a = b) :
    strLtB a b = true ∨ strLtB b a = true := by
  apply charListLt_total
  intro hc
  apply hne
  cases a with
  | mk da =>
    cases b with
    | mk db => exact congrArg String.mk hc

theorem strLtB_trans {a b c : String} (h1 : strLtB a b = true) (h2 : strLtB b c = true) :
    strLtB a c = true :=
  charListLt_trans _ _ _ h1 h2

theorem seatLeB_total_int {a b : Seat} (ha : intSeat a) (hb : intSeat b) :
    seatLeB a b = true ∨ seatLeB b a = true := by
  obtain ⟨c1, d1, rfl⟩ := ha
  obtain ⟨c2, d2, rfl⟩ := hb
  by_cases hcc : c1 = c2
  · subst hcc
    rcases Int.le_total d1 d2 with hle | hle
    · exact Or.inl (by simp [seatLeB, svalLeB, hle])
    · exact Or.inr (by simp [seatLeB, svalLeB, hle])
  · have hcc2 : ¬ c2 = c1 := fun hh => hcc hh.symm
    rcases strLtB_total hcc with hlt | hlt
    · exact Or.inl (by simp [seatLeB, svalLeB, hcc, hlt])
    · exact Or.inr (by simp [seatLeB, svalLeB, hcc2, hlt])

theorem seatLeB_trans_int {a b c : Seat} (ha : intSeat a) (hb : intSeat b) (hc : intSeat c)
    (h1 : seatLeB a b = true) (h2 : seatLeB b c = true) : seatLeB a c = true := by
  obtain ⟨c1, d1, rfl⟩ := ha
  obtain ⟨c2, d2, rfl⟩ := hb
  obtain ⟨c3, d3, rfl⟩ := hc
  by_cases h12 : c1 = c2 <;> by_cases h23 : c2 = c3
  · subst h12
    subst h23
    dsimp only [seatLeB] at h1 h2 ⊢
    rw [if_pos rfl] at h1 h2 ⊢
    simp only [svalLeB, decide_eq_true_eq] at h1 h2 ⊢
    exact le_trans h1 h2
  · subst h12
    dsimp only [seatLeB] at h2 ⊢
    rw [if_neg h23] at h2 ⊢
    exact h2
  · subst h23
    dsimp only [seatLeB] at h1 ⊢
    rw [if_neg h12] at h1 ⊢
    exact h1
  · dsimp only [seatLeB] at h1 h2 ⊢
    rw [if_neg h12] at h1
    rw [if_neg h23] at h2
    have h13lt : strLtB c1 c3 = true := strLtB_trans h1 h2
    have h13 : ¬ c1 = c3 := strLtB_not_eq h13lt
    rw [if_neg h13]
    exact h13lt

theorem insertOp_perm (key : Op → Seat) (op : Op) :
    ∀ l : List Op, (insertOp key op l).Perm (op :: l) := by
  intro l
  induction l with
  | nil => exact List.Perm.refl _
  | cons o rest ih =>
    unfold insertOp
    by_cases hle : seatLeB (key op) (key o) = true
    · rw [if_pos hle]
    · rw [if_neg hle]
      exact (ih.cons o).trans (List.Perm.swap op o rest)

theorem sortOpsWith_perm (key : Op → Seat) :
    ∀ l : List Op, (sortOpsWith key l).Perm l := by
  intro l
  induction l with
  | nil => exact List.Perm.refl _
  | cons o rest ih =>
    unfold sortOpsWith
    exact (insertOp_perm key o (sortOpsWith key rest)).trans (ih.cons o)

theorem insertOp_mem (key : Op → Seat) (op x : Op) (l : List Op) :
    x ∈ insertOp key op l ↔ x = op ∨ x ∈ l := by
  rw [(insertOp_perm key op l).mem_iff]
  exact List.mem_cons

theorem insertOp_pairwise (key : Op → Seat) (op : Op) :
    ∀ l : List Op, (∀ x ∈ op :: l, intSeat (key x)) →
      l.Pairwise (fun a b => seatLeB (key a) (key b) = true) →
      (insertOp key op l).Pairwise (fun a b => seatLeB (key a) (key b) = true) := by
  intro l
  induction l with
  | nil =>
    intro _ _
    simp [insertOp]
  | cons o rest ih =>
    intro hall hs
    unfold insertOp
    by_cases hle : seatLeB (key op) (key o) = true
    · rw [if_pos hle]
      refine List.Pairwise.cons ?_ hs
      intro y hy
      rcases List.mem_cons.mp hy with rfl | hy'
      · exact hle
      · exact seatLeB_trans_int (hall op (by simp)) (hall o (by simp))
          (hall y (by simp [hy'])) hle ((List.pairwise_cons.mp hs).1 y hy')
    · rw [if_neg hle]
      refine List.Pairwise.cons ?_ ?_
      · intro y hy
        rcases (insertOp_mem key op y rest).mp hy with rfl | hy'
        · rcases seatLeB_total_int (hall y (by simp)) (hall o (by simp)) with hgood | hgood
          · exact absurd hgood hle
          · exact hgood
        · exact (List.pairwise_cons.mp hs).1 y hy'
      · refine ih ?_ (List.pairwise_cons.mp hs).2
        intro x hx
        rcases List.mem_cons.mp hx with rfl | hx'
        · exact hall x (by simp)
        · exact hall x (by simp [hx'])

theorem sortOpsWith_pairwise (key : Op → Seat) :
    ∀ l : List Op, (∀ x ∈ l, intSeat (key x)) →
      (sortOpsWith key l).Pairwise (fun a b => seatLeB (key a) (key b) = true) := by
  intro l
  induction l with
  | nil =>
    intro _
    simp [sortOpsWith]
  | cons o rest ih =>
    intro hall
    unfold sortOpsWith
    refine insertOp_pairwise key o (sortOpsWith key rest) ?_
      (ih (fun x hx => hall x (by simp [hx])))
    intro x hx
    rcases List.mem_cons.mp hx with rfl | hx'
    · exact hall x (by simp)
    · have hxr := (sortOpsWith_perm key rest).mem_iff.mp hx'
      exact hall x (by simp [hxr])

theorem seatsOf_some :
    ∀ ops : List Op, (∀ op ∈ ops, (seat? (opKeyDoc op).data).isSome) →
      ∃ l, seatsOf ops = some l := by
  intro ops
  induction ops with
  | nil =>
    intro _
    exact ⟨[], rfl⟩
  | cons o rest ih =>
    intro hall
    obtain ⟨s, hs⟩ := Option.isSome_iff_exists.mp (hall o (by simp))
    obtain ⟨l, hl⟩ := ih (fun op hop => hall op (by simp [hop]))
    refine ⟨s :: l, ?_⟩
    simp [seatsOf, hs, hl]

/-- C2, amended: before execution the pending operations are sorted by the
seat of the operation's first-argument document — the incoming document for
Create but the existing document for Retire and for Update — and execution
then consumes the sorted list front to back; for seats `(lower, 3)`,
`(upper, 1)`, `(lower, 1)` the sorted order is `(lower, 1)`, `(lower, 3)`,
`(upper, 1)`. -/
theorem operations_execute_sorted_by_first_argument_seat
    (ed : String) (st : StoreSt) (ops : List Op)
    (hseat : ∀ op ∈ ops, ∃ c d, seat? (opKeyDoc op).data = some (c, SVal.vi d)) :
    (sortOps ops).Perm ops ∧
    (sortOps ops).Pairwise (fun a b => seatLeB (codeKey a) (codeKey b) = true) ∧
    executeDeferred ed st ops = (sortOps ops).foldlM (execOp ed) st ∧
    sortOps [opL3, opU1, opL1] = [opL1, opL3, opU1] := by
  have hint : ∀ x ∈ ops, intSeat (codeKey x) := by
    intro x hx
    obtain ⟨c, d, hcd⟩ := hseat x hx
    exact ⟨c, d, by simp [codeKey, seatD, hcd]⟩
  refine ⟨sortOpsWith_perm codeKey ops, sortOpsWith_pairwise codeKey ops hint, ?_, by decide⟩
  unfold executeDeferred
  obtain ⟨l, hl⟩ := seatsOf_some ops (fun op hop => by
    obtain ⟨c, d, hcd⟩ := hseat op hop
    simp [hcd])
  rw [hl]
  simp [sortOps]

/-- Witness for the operation-ordering claim at the three example seats. -/
theorem operations_execute_sorted_by_first_argument_seat_witness :
    (sortOps [opL3, opU1, opL1]).Perm [opL3, opU1, opL1] ∧
    (sortOps [opL3, opU1, opL1]).Pairwise
      (fun a b => seatLeB (codeKey a) (codeKey b) = true) ∧
    executeDeferred "2020-07-01" ⟨[], []⟩ [opL3, opU1, opL1]
      = (sortOps [opL3, opU1, opL1]).foldlM (execOp "2020-07-01") ⟨[], []⟩ ∧
    sortOps [opL3, opU1, opL1] = [opL1, opL3, opU1] := by
  apply operations_execute_sorted_by_first_argument_seat
  intro op hop
  rcases List.mem_cons.mp hop with rfl | hop1
  · exact ⟨"lower", 3, by decide⟩
  · rcases List.mem_cons.mp hop1 with rfl | hop2
    · exact ⟨"upper", 1, by decide⟩
    · rcases List.mem_cons.mp hop2 with rfl | hop3
      · exact ⟨"lower", 1, by decide⟩
      · exact absurd hop3 (List.not_mem_nil op)

/-- C2, counterexample: an update whose existing record sits in
`(upper, 9)` and whose incoming record sits in `(lower, 1)` is sorted after
a create for `(lower, 3)` — the code keys updates by the existing
document's seat, so the executed order differs from the order the claim
predicts from the incoming document's seat. -/
theorem update_sorted_by_existing_seat_not_incoming_cex :
    sortOps [opUpd, opCr] = [opCr, opUpd] ∧
    sortOpsWith specKey [opUpd, opCr] = [opUpd, opCr] ∧
    ¬ ([opCr, opUpd] : List Op) = [opUpd, opCr] := by
  refine ⟨by decide, by decide, by decide⟩

end People
